import Mathlib

/-!
Allocator and scheduler of the simple OS simulator.

A shallow embedding of `MemoryManager` (first-fit allocator with eager
coalescing, `src/MemoryManager.cpp`) and of `ProcessScheduler`
(`src/ProcessScheduler.cpp`), followed by theorems about them.

`size_t` values are natural numbers; every addition the source performs on
them is taken modulo `SIZE_MOD = 2 ^ 64`.  The mutexes are not modelled: each
public operation is one atomic state transformer.  The threads of the scheduler
are modelled by interleaving: a run is a sequence of atomic steps (calls on the
public interface, steps of the dispatch loop, a process thread reaching its
end), and `join` is the wait for the end of the joined thread.
-/

/-! ## Data model -/

/-- Modulus of `size_t` arithmetic (64-bit target). -/
def SIZE_MOD : Nat := 2 ^ 64

/-- The `struct Block` of `MemoryManager.h`: a region of the simulated memory. -/
structure Block where
  size : Nat
  is_free : Bool
  start_addr : Nat
deriving DecidableEq, Repr

/-- The data members of `class MemoryManager` (the mutex is left out). -/
structure MemoryManager where
  memory_blocks : List Block
  total_memory : Nat
deriving DecidableEq, Repr

/-- The constructor `MemoryManager::MemoryManager(total_size)`: one free block
that spans the whole memory and starts at address 0. -/
def MemoryManager.new (total_size : Nat) : MemoryManager :=
  ⟨[⟨total_size, true, 0⟩], total_size⟩

/-! ## `alloc` -/

/-- The `for` loop of `MemoryManager::alloc`: walks the blocks from the front;
at the first block with `is_free && size >= requested` it either flips the block
(exact fit) or shrinks it and inserts the free remainder right after it, and
returns the block's start.  `none` when the loop runs off the end. -/
def allocScan (size : Nat) : List Block → Option (Nat × List Block)
  | [] => none
  | b :: rest =>
    if b.is_free = true ∧ size ≤ b.size then
      if b.size = size then
        some (b.start_addr, ⟨b.size, false, b.start_addr⟩ :: rest)
      else
        some (b.start_addr,
          ⟨size, false, b.start_addr⟩ ::
            ⟨b.size - size, true, (b.start_addr + size) % SIZE_MOD⟩ :: rest)
    else
      match allocScan size rest with
      | none => none
      | some (a, rest') => some (a, b :: rest')

/-- The method `MemoryManager::alloc(size)`: the returned address (0 when the
loop found nothing) and the manager afterwards. -/
def MemoryManager.alloc (m : MemoryManager) (size : Nat) : Nat × MemoryManager :=
  match allocScan size m.memory_blocks with
  | some (a, bs) => (a, ⟨bs, m.total_memory⟩)
  | none => (0, m)

/-! ## `merge_free_blocks` and `free` -/

/-- The comparator handed to `std::sort`, as a non-strict order on starts. -/
def startLe (a b : Block) : Prop := a.start_addr ≤ b.start_addr

instance : DecidableRel startLe := fun a b => Nat.decLe a.start_addr b.start_addr

/-- The `std::sort` call of `merge_free_blocks`.  `std::sort` leaves the order
of blocks with equal starts unspecified; insertion sort picks one of the
allowed results.  On a list whose starts are already ascending every sorting
algorithm returns the list itself. -/
def sortBlocks (bs : List Block) : List Block := List.insertionSort startLe bs

/-- The merging loop of `merge_free_blocks`, with `b` the block under the
iterator and the list the blocks after it: when both `b` and its successor are
free and `b` ends where the successor starts, the successor is absorbed into `b`
and the iterator stays; otherwise the iterator advances.  The loop ends when the
iterator is on the last block. -/
def mergeLoop : Block → List Block → List Block
  | b, [] => [b]
  | b, c :: rest =>
    if b.is_free = true ∧ c.is_free = true ∧
        (b.start_addr + b.size) % SIZE_MOD = c.start_addr then
      mergeLoop ⟨(b.size + c.size) % SIZE_MOD, b.is_free, b.start_addr⟩ rest
    else
      b :: mergeLoop c rest

/-- The merging loop started with the iterator on the first block.  The source
never runs it on an empty vector (`free` calls `merge_free_blocks` only after it
found a block), so the empty case is never reached. -/
def mergeBlocks : List Block → List Block
  | [] => []
  | b :: rest => mergeLoop b rest

/-- The method `MemoryManager::merge_free_blocks`, on the block list: sort by
start, then merge. -/
def merge_free_blocks (bs : List Block) : List Block :=
  mergeBlocks (sortBlocks bs)

/-- The range-`for` of `MemoryManager::free`: the first block with
`start_addr == addr && !is_free` is marked free; `none` when there is none. -/
def freeScan (addr : Nat) : List Block → Option (List Block)
  | [] => none
  | b :: rest =>
    if b.start_addr = addr ∧ b.is_free = false then
      some (⟨b.size, true, b.start_addr⟩ :: rest)
    else
      match freeScan addr rest with
      | none => none
      | some rest' => some (b :: rest')

/-- The method `MemoryManager::free(start_addr)`: the returned flag and the
manager afterwards (a found block is marked free, then the merge pass runs). -/
def MemoryManager.free (m : MemoryManager) (start_addr : Nat) : Bool × MemoryManager :=
  match freeScan start_addr m.memory_blocks with
  | some bs => (true, ⟨merge_free_blocks bs, m.total_memory⟩)
  | none => (false, m)

/-! ## `get_memory_stats` -/

/-- One iteration of the loop of `get_memory_stats` on the pair `(used, free)`. -/
def statsStep (acc : Nat × Nat) (b : Block) : Nat × Nat :=
  if b.is_free = true then (acc.1, (acc.2 + b.size) % SIZE_MOD)
  else ((acc.1 + b.size) % SIZE_MOD, acc.2)

/-- The method `MemoryManager::get_memory_stats`: `(total, used, free)`. -/
def MemoryManager.get_memory_stats (m : MemoryManager) : Nat × Nat × Nat :=
  let acc := m.memory_blocks.foldl statsStep (0, 0)
  (m.total_memory, acc.1, acc.2)

/-! ## Call sequences -/

/-- A call on the allocator's public interface. -/
inductive MemOp where
  | alloc (size : Nat)
  | free (start_addr : Nat)
deriving DecidableEq, Repr

/-- The manager after one call (the returned value is dropped). -/
def MemOp.apply (m : MemoryManager) : MemOp → MemoryManager
  | .alloc size => (m.alloc size).2
  | .free a => (m.free a).2

/-- The precondition of the interface: `alloc` is called with `size > 0`;
`free` takes any address. -/
def MemOp.valid : MemOp → Prop
  | .alloc size => 0 < size
  | .free _ => True

instance : DecidablePred MemOp.valid := fun op =>
  match op with
  | .alloc size => Nat.decLt 0 size
  | .free _ => isTrue trivial

/-- The manager after a sequence of calls, first call first. -/
def runOps (ops : List MemOp) (m : MemoryManager) : MemoryManager :=
  ops.foldl MemOp.apply m

/-- A state of the allocator that a fresh `MemoryManager(T)` reaches by calls
that respect the interface. -/
def Reachable (T : Nat) (m : MemoryManager) : Prop :=
  ∃ ops : List MemOp, (∀ op ∈ ops, op.valid) ∧ m = runOps ops (MemoryManager.new T)

/-! ## Properties of block lists -/

/-- Starts are strictly ascending. -/
def StrictAscending (l : List Block) : Prop :=
  List.Pairwise (fun a b => a.start_addr < b.start_addr) l

/-- Every block ends where its successor starts. -/
def Contiguous (l : List Block) : Prop :=
  List.Chain' (fun a b => a.start_addr + a.size = b.start_addr) l

/-- The blocks tile `[0, T)`: ascending, first start 0, no gap, no overlap, last
end `T`. -/
def Tiling (T : Nat) (l : List Block) : Prop :=
  StrictAscending l ∧ l.head?.map Block.start_addr = some 0 ∧ Contiguous l ∧
    l.getLast?.map (fun b => b.start_addr + b.size) = some T

/-- No two neighbouring blocks are both free. -/
def NoAdjFree (l : List Block) : Prop :=
  List.Chain' (fun a b => ¬ (a.is_free = true ∧ b.is_free = true)) l

/-- The blocks, in order, cover `[a, T)` without gap or overlap. -/
def TilesFrom : Nat → Nat → List Block → Prop
  | a, T, [] => a = T
  | a, T, b :: rest => b.start_addr = a ∧ TilesFrom (a + b.size) T rest

/-- Every block has a positive size. -/
def PosSizes (l : List Block) : Prop := ∀ b ∈ l, 0 < b.size

/-! ## The admission path of the scheduler -/

/-- A value of C++ `int` after an arithmetic step that wraps (the
post-increment of `std::atomic<int>`). -/
def wrapInt32 (n : Int) : Int := (n + 2147483648) % 4294967296 - 2147483648

/-- The `std::thread` behind `Process::thread_ptr`: whether its body
`process_execution` has run to its end, and whether it can still be joined. -/
structure Thread where
  finished : Bool
  joinable : Bool
deriving DecidableEq, Repr

/-- The `struct Process` of `ProcessScheduler.h`; `thread_ptr` is `none` for the
null pointer the constructor leaves. -/
structure Process where
  pid : Int
  name : String
  memory_required : Nat
  memory_address : Nat
  thread_ptr : Option Thread
deriving DecidableEq, Repr

/-- The data members of `class ProcessScheduler`, with the allocator it refers
to held in the state.  `ready_queue` has its front first; `running_processes` is
the `unordered_map` as an association list.  The mutex, the condition variable
and the loop thread are left out. -/
structure ProcessScheduler where
  memory_manager : MemoryManager
  ready_queue : List Process
  running_processes : List (Int × Process)
  next_pid : Int
  scheduler_running : Bool
deriving DecidableEq, Repr

/-- The constructor `ProcessScheduler::ProcessScheduler(mm)`. -/
def ProcessScheduler.new (mm : MemoryManager) : ProcessScheduler :=
  ⟨mm, [], [], 1, false⟩

/-- The method `ProcessScheduler::crear_proceso(name, memory_required)`: takes
the next pid, calls `alloc`, and on a returned address of 0 gives up with -1;
otherwise pushes the process on the ready queue and returns its pid. -/
def ProcessScheduler.crear_proceso (s : ProcessScheduler) (name : String)
    (memory_required : Nat) : Int × ProcessScheduler :=
  let pid := s.next_pid
  let next := wrapInt32 (s.next_pid + 1)
  let r := s.memory_manager.alloc memory_required
  if r.1 = 0 then
    (-1, ⟨r.2, s.ready_queue, s.running_processes, next, s.scheduler_running⟩)
  else
    (pid, ⟨r.2, s.ready_queue ++ [⟨pid, name, memory_required, r.1, none⟩],
      s.running_processes, next, s.scheduler_running⟩)

/-! ## Vocabulary of the statements -/

/-- The test of the `alloc` loop. -/
def Fits (size : Nat) (b : Block) : Prop := b.is_free = true ∧ size ≤ b.size

instance (size : Nat) : DecidablePred (Fits size) := fun b =>
  inferInstanceAs (Decidable (b.is_free = true ∧ size ≤ b.size))

/-- What `alloc` puts in the place of the block it chose. -/
def splitBlock (size : Nat) (b : Block) : List Block :=
  if b.size = size then [⟨b.size, false, b.start_addr⟩]
  else [⟨size, false, b.start_addr⟩,
        ⟨b.size - size, true, (b.start_addr + size) % SIZE_MOD⟩]

/-- The test of the `free` loop. -/
def Hit (addr : Nat) (b : Block) : Prop := b.start_addr = addr ∧ b.is_free = false

instance (addr : Nat) : DecidablePred (Hit addr) := fun b =>
  inferInstanceAs (Decidable (b.start_addr = addr ∧ b.is_free = false))

/-- The invariant the allocator keeps: the blocks tile `[0, T)` with `T` a
`size_t`, sizes are positive (but for the single empty block of a manager of
total 0), and no two neighbours are both free. -/
structure WF (T : Nat) (l : List Block) : Prop where
  bound : T < SIZE_MOD
  ne : l ≠ []
  tiles : TilesFrom 0 T l
  pos : PosSizes l ∨ l = [⟨0, true, 0⟩]
  noadj : NoAdjFree l

/-- Sum of the sizes of the occupied blocks. -/
def usedBytes (l : List Block) : Nat :=
  ((l.filter (fun b => !b.is_free)).map Block.size).sum

/-- Sum of the sizes of the free blocks. -/
def freeBytes (l : List Block) : Nat :=
  ((l.filter (fun b => b.is_free)).map Block.size).sum

/-- A released block `R` as the specification describes it after the merge
with its successor: free, and grown by the successor when that one is free.
Returns the block and the blocks that remain after it. -/
def absorbNext (R : Block) : List Block → Block × List Block
  | [] => (⟨R.size, true, R.start_addr⟩, [])
  | n :: ps =>
    if n.is_free = true then (⟨R.size + n.size, true, R.start_addr⟩, ps)
    else (⟨R.size, true, R.start_addr⟩, n :: ps)

/-- The block list the specification promises after the release of `R` in
`pre ++ R :: post`: `R` is free and merged with its successor when that one is
free and with its predecessor when that one is free; all other blocks stay. -/
def releaseSpec (pre : List Block) (R : Block) (post : List Block) : List Block :=
  let nx := absorbNext R post
  match pre.getLast? with
  | none => nx.1 :: nx.2
  | some p =>
    if p.is_free = true then
      pre.dropLast ++ ⟨p.size + nx.1.size, true, p.start_addr⟩ :: nx.2
    else
      pre ++ nx.1 :: nx.2

/-! ## Threads, the dispatch loop, stop and terminate -/

/-- The process `p` with `thread_ptr` set to `t`. -/
def Process.withThread (p : Process) (t : Option Thread) : Process :=
  ⟨p.pid, p.name, p.memory_required, p.memory_address, t⟩

/-- The assignment `running_processes[pid] = process`: an entry with the same
key is replaced, otherwise the entry is added.  The iteration order of the
`unordered_map` is unspecified; the list order is one of the allowed orders. -/
def insertRunning (pid : Int) (p : Process) (l : List (Int × Process)) :
    List (Int × Process) :=
  l.filter (fun e => decide (e.1 ≠ pid)) ++ [(pid, p)]

/-- The method `ProcessScheduler::execute_process(process)`: creates the thread
of the process (running, joinable) and enters the process in the running
table. -/
def ProcessScheduler.execute_process (s : ProcessScheduler) (p : Process) :
    ProcessScheduler :=
  ⟨s.memory_manager, s.ready_queue,
    insertRunning p.pid (p.withThread (some ⟨false, true⟩)) s.running_processes,
    s.next_pid, s.scheduler_running⟩

/-- The method `ProcessScheduler::start_scheduler`: sets the flag (and starts the
loop thread) when the scheduler is not running. -/
def ProcessScheduler.start_scheduler (s : ProcessScheduler) : ProcessScheduler :=
  if s.scheduler_running = true then s
  else ⟨s.memory_manager, s.ready_queue, s.running_processes, s.next_pid, true⟩

/-- One iteration of the inner `while (!ready_queue.empty())` of
`scheduler_loop`: the front of the ready queue is popped and handed to
`execute_process`.  Returns the scheduler and the processes handed over (one or
none).  The loop runs only while `scheduler_running` holds; with an empty queue
it waits. -/
def ProcessScheduler.dispatch_one (s : ProcessScheduler) :
    ProcessScheduler × List Process :=
  if s.scheduler_running = true then
    match s.ready_queue with
    | [] => (s, [])
    | p :: rest =>
      (ProcessScheduler.execute_process
        ⟨s.memory_manager, rest, s.running_processes, s.next_pid, s.scheduler_running⟩ p,
        [p])
  else (s, [])

/-- What `cleanup_finished_processes` does with one entry: `some true` keeps it
(the thread is joinable, and the identity of a joinable thread is never the null
identity), `some false` erases it (null `thread_ptr`), `none` when `join()` is
called on a thread that is not joinable, which throws. -/
def cleanupEntry (e : Int × Process) : Option Bool :=
  match e.2.thread_ptr with
  | some t => if t.joinable = true then some true else none
  | none => some false

/-- The method `ProcessScheduler::cleanup_finished_processes`; `none` when a
`join()` throws. -/
def ProcessScheduler.cleanup_finished_processes (s : ProcessScheduler) :
    Option ProcessScheduler :=
  if s.running_processes.all (fun e => (cleanupEntry e).isSome) then
    some ⟨s.memory_manager, s.ready_queue,
      s.running_processes.filter (fun e => cleanupEntry e == some true),
      s.next_pid, s.scheduler_running⟩
  else none

/-- The running table entry `e` after the thread of the entry with key `pid` has
run to its end: that entry's thread is marked finished, other entries stay. -/
def markFinished (pid : Int) (e : Int × Process) : Int × Process :=
  if e.1 = pid then
    (e.1, e.2.withThread (e.2.thread_ptr.map (fun u => ⟨true, u.joinable⟩)))
  else e

/-- The method `ProcessScheduler::process_execution`, run by the thread of the
running entry `pid`, from wherever the thread is to its end: the simulated work
changes no state, the last statement calls `free` on the address of the process.
Returns the scheduler and the `free` calls made, as pairs (pid, address).
Nothing happens when the entry has no thread or the thread has already run to
its end. -/
def ProcessScheduler.process_execution (s : ProcessScheduler) (pid : Int) :
    ProcessScheduler × List (Int × Nat) :=
  match s.running_processes.lookup pid with
  | none => (s, [])
  | some p =>
    match p.thread_ptr with
    | none => (s, [])
    | some t =>
      if t.finished = true then (s, [])
      else
        (⟨(s.memory_manager.free p.memory_address).2, s.ready_queue,
            s.running_processes.map (markFinished pid),
            s.next_pid, s.scheduler_running⟩,
          [(p.pid, p.memory_address)])

/-- The statement `if (thread_ptr && thread_ptr->joinable()) thread_ptr->join()`
of `terminate_process` and `stop_scheduler`, as seen by the allocator: the caller
waits until the thread has run to its end, so a thread that has not yet made its
`free` call makes it now.  Returns the allocator and the `free` calls made.  The
entry is erased right after, so the thread is not tracked further. -/
def joinThread (mm : MemoryManager) (p : Process) : MemoryManager × List (Int × Nat) :=
  match p.thread_ptr with
  | none => (mm, [])
  | some t =>
    if t.joinable = true ∧ t.finished = false then
      ((mm.free p.memory_address).2, [(p.pid, p.memory_address)])
    else (mm, [])

/-- The body of the `for` loop of `stop_scheduler` and the core of
`terminate_process` for one process: join its thread, then call `free` on its
address. -/
def joinAndFree (acc : MemoryManager × List (Int × Nat)) (p : Process) :
    MemoryManager × List (Int × Nat) :=
  let j := joinThread acc.1 p
  ((j.1.free p.memory_address).2, acc.2 ++ j.2 ++ [(p.pid, p.memory_address)])

/-- The method `ProcessScheduler::terminate_process(pid)`: the returned flag, the
scheduler afterwards and the `free` calls made. -/
def ProcessScheduler.terminate_process (s : ProcessScheduler) (pid : Int) :
    Bool × ProcessScheduler × List (Int × Nat) :=
  match s.running_processes.lookup pid with
  | none => (false, s, [])
  | some p =>
    let r := joinAndFree (s.memory_manager, []) p
    (true,
      ⟨r.1, s.ready_queue, s.running_processes.filter (fun e => decide (e.1 ≠ pid)),
        s.next_pid, s.scheduler_running⟩,
      r.2)

/-- The method `ProcessScheduler::stop_scheduler`: the scheduler afterwards and
the `free` calls made.  When the scheduler runs, the flag is cleared, the loop
thread ends, every process of the running table is joined and its address
passed to `free`, and the table is cleared.  The ready queue is not touched. -/
def ProcessScheduler.stop_scheduler (s : ProcessScheduler) :
    ProcessScheduler × List (Int × Nat) :=
  if s.scheduler_running = true then
    let r := (s.running_processes.map Prod.snd).foldl joinAndFree (s.memory_manager, [])
    (⟨r.1, s.ready_queue, [], s.next_pid, false⟩, r.2)
  else (s, [])

/-! ## Runs of the scheduler -/

/-- A step of a run: a call on the public interface, a step of the dispatch
loop, or a process thread reaching its end. -/
inductive SchedOp where
  | crear (name : String) (memory_required : Nat)
  | start
  | stop
  | sweep
  | pop
  | finish (pid : Int)
  | terminate (pid : Int)
deriving DecidableEq, Repr

/-- The precondition of the interface: `crear_proceso` is called with a positive
size. -/
def SchedOp.valid : SchedOp → Prop
  | .crear _ memory_required => 0 < memory_required
  | _ => True

instance : DecidablePred SchedOp.valid := fun op =>
  match op with
  | .crear _ memory_required => Nat.decLt 0 memory_required
  | .start => isTrue trivial
  | .stop => isTrue trivial
  | .sweep => isTrue trivial
  | .pop => isTrue trivial
  | .finish _ => isTrue trivial
  | .terminate _ => isTrue trivial

/-- A scheduler together with the history of a run: the processes pushed on the
ready queue by `crear_proceso`, the processes handed to `execute_process`, and
the calls of `MemoryManager::free` made for processes, each list in the order
of the events. -/
structure Sys where
  sched : ProcessScheduler
  admitted : List Process
  dispatched : List Process
  frees : List (Int × Nat)
deriving DecidableEq, Repr

/-- A fresh scheduler over the allocator `mm`, with an empty history. -/
def Sys.new (mm : MemoryManager) : Sys :=
  ⟨ProcessScheduler.new mm, [], [], []⟩

/-- One step of a run.  A step that is not enabled (a loop step while the
scheduler does not run, a pop on an empty queue, the end of a thread that does
not exist or has ended) leaves everything as it is; so does a sweep in which
`join()` would throw, which needs a thread in the running table that is not
joinable (`cleanup_succeeds`: there is none in a run from a fresh scheduler). -/
def Sys.step (y : Sys) : SchedOp → Sys
  | .crear name memory_required =>
    let r := y.sched.crear_proceso name memory_required
    ⟨r.2, y.admitted ++ r.2.ready_queue.drop y.sched.ready_queue.length,
      y.dispatched, y.frees⟩
  | .start => ⟨y.sched.start_scheduler, y.admitted, y.dispatched, y.frees⟩
  | .stop =>
    let r := y.sched.stop_scheduler
    ⟨r.1, y.admitted, y.dispatched, y.frees ++ r.2⟩
  | .sweep =>
    if y.sched.scheduler_running = true then
      match y.sched.cleanup_finished_processes with
      | some s => ⟨s, y.admitted, y.dispatched, y.frees⟩
      | none => y
    else y
  | .pop =>
    let r := y.sched.dispatch_one
    ⟨r.1, y.admitted, y.dispatched ++ r.2, y.frees⟩
  | .finish pid =>
    let r := y.sched.process_execution pid
    ⟨r.1, y.admitted, y.dispatched, y.frees ++ r.2⟩
  | .terminate pid =>
    let r := y.sched.terminate_process pid
    ⟨r.2.1, y.admitted, y.dispatched, y.frees ++ r.2.2⟩

/-- The system after a sequence of steps, first step first. -/
def Sys.run (ops : List SchedOp) (y : Sys) : Sys :=
  ops.foldl Sys.step y

/-- Number of `free` calls made for the process `pid` on the address `addr`. -/
def freeCalls (pid : Int) (addr : Nat) (log : List (Int × Nat)) : Nat :=
  log.count (pid, addr)

/-! ## Vocabulary of the scheduler statements -/

/-- The block list of the first-fit example of the specification. -/
def firstFitExample : MemoryManager :=
  ⟨[⟨100, true, 0⟩, ⟨50, false, 100⟩, ⟨200, true, 150⟩], 350⟩

/-- The block list of the first-fit example after `alloc(80)`. -/
def afterFirstFit : MemoryManager :=
  ⟨[⟨80, false, 0⟩, ⟨20, true, 80⟩, ⟨50, false, 100⟩, ⟨200, true, 150⟩], 350⟩

/-- A manager of total 100 with two occupied blocks of 40 and two free gaps of 10. -/
def fragmented : MemoryManager :=
  ⟨[⟨40, false, 0⟩, ⟨10, true, 40⟩, ⟨40, false, 50⟩, ⟨10, true, 90⟩], 100⟩

/-- Calls that lead a fresh manager of total 100 to `fragmented`. -/
def fragmentingCalls : List MemOp :=
  [.alloc 40, .alloc 10, .alloc 40, .free 40]

/-- A longer call sequence with failing and succeeding calls of both kinds. -/
def mixedCalls : List MemOp :=
  [.alloc 40, .alloc 10, .alloc 40, .free 40, .free 7, .alloc 5, .alloc 500, .free 0,
   .free 0, .alloc 45, .free 50]

/-- An allocator of total 8192 whose first 16 bytes were reserved by a direct
`alloc(16)`, so that address 0 is taken. -/
def zeroTaken : MemoryManager := ((MemoryManager.new 8192).alloc 16).2

/-- Admission of A, B and C, then three pops. -/
def fifoRun : List SchedOp :=
  [.start, .crear "A" 100, .crear "B" 200, .crear "C" 300, .pop, .pop, .pop]

/-- Process B (pid 2, address 512) is admitted and dispatched and its thread
ends; the first admission, A, lands on address 0.  -/
def finishedRun : List SchedOp :=
  [.start, .crear "A" 512, .crear "B" 100, .pop, .finish 2]

theorem allocScan_none (size : Nat) (l : List Block) :
    allocScan size l = none ↔ ∀ b ∈ l, ¬ Fits size b := by
  induction l with
  | nil => simp [allocScan]
  | cons b rest ih =>
    by_cases h : b.is_free = true ∧ size ≤ b.size
    · have : allocScan size (b :: rest) ≠ none := by
        unfold allocScan
        rw [if_pos h]
        split <;> simp
      simp only [this, false_iff]
      intro hall
      exact hall b (List.mem_cons_self _ _) h
    · unfold allocScan
      rw [if_neg h]
      cases hr : allocScan size rest with
      | none =>
        simp only [true_iff]
        intro x hx
        rcases List.mem_cons.1 hx with rfl | hx
        · exact h
        · exact (ih.1 hr) x hx
      | some p =>
        simp only [false_iff, reduceCtorEq]
        intro hall
        have := ih.2 (fun x hx => hall x (List.mem_cons_of_mem _ hx))
        rw [hr] at this
        exact absurd this (by simp)

theorem allocScan_append (size : Nat) (pre : List Block) (b : Block) (post : List Block)
    (hpre : ∀ x ∈ pre, ¬ Fits size x) (hb : Fits size b) :
    allocScan size (pre ++ b :: post)
      = some (b.start_addr, pre ++ splitBlock size b ++ post) := by
  have hb' : b.is_free = true ∧ size ≤ b.size := hb
  induction pre with
  | nil =>
    show allocScan size (b :: post) = _
    rw [allocScan, if_pos hb']
    unfold splitBlock
    split <;> simp
  | cons x pre ih =>
    have hx : ¬ (x.is_free = true ∧ size ≤ x.size) := hpre x (List.mem_cons_self _ _)
    have := ih (fun y hy => hpre y (List.mem_cons_of_mem _ hy))
    show allocScan size (x :: (pre ++ b :: post)) = _
    rw [allocScan, if_neg hx, this]
    simp

theorem allocScan_some (size : Nat) (l : List Block) (a : Nat) (l' : List Block)
    (h : allocScan size l = some (a, l')) :
    ∃ pre b post, l = pre ++ b :: post ∧ (∀ x ∈ pre, ¬ Fits size x) ∧ Fits size b ∧
      a = b.start_addr ∧ l' = pre ++ splitBlock size b ++ post := by
  induction l generalizing a l' with
  | nil => simp [allocScan] at h
  | cons b rest ih =>
    by_cases hb : b.is_free = true ∧ size ≤ b.size
    · refine ⟨[], b, rest, rfl, by simp, hb, ?_⟩
      have := allocScan_append size [] b rest (by simp) hb
      simp only [List.nil_append] at this
      rw [this] at h
      simp only [Option.some.injEq, Prod.mk.injEq] at h
      exact ⟨h.1.symm, by simpa using h.2.symm⟩
    · unfold allocScan at h
      rw [if_neg hb] at h
      cases hr : allocScan size rest with
      | none => rw [hr] at h; simp at h
      | some p =>
        obtain ⟨a0, r0⟩ := p
        rw [hr] at h
        simp only [Option.some.injEq, Prod.mk.injEq] at h
        obtain ⟨pre, c, post, hl, hpre, hc, ha, hl'⟩ := ih a0 r0 hr
        refine ⟨b :: pre, c, post, by simp [hl], ?_, hc, by rw [← h.1, ha], ?_⟩
        · intro x hx
          rcases List.mem_cons.1 hx with rfl | hx
          · exact hb
          · exact hpre x hx
        · rw [← h.2, hl']; simp

theorem freeScan_none (addr : Nat) (l : List Block) :
    freeScan addr l = none ↔ ∀ b ∈ l, ¬ Hit addr b := by
  induction l with
  | nil => simp [freeScan]
  | cons b rest ih =>
    by_cases h : b.start_addr = addr ∧ b.is_free = false
    · have : freeScan addr (b :: rest) ≠ none := by
        rw [freeScan, if_pos h]; simp
      simp only [this, false_iff]
      intro hall
      exact hall b (List.mem_cons_self _ _) h
    · rw [freeScan, if_neg h]
      cases hr : freeScan addr rest with
      | none =>
        simp only [true_iff]
        intro x hx
        rcases List.mem_cons.1 hx with rfl | hx
        · exact h
        · exact (ih.1 hr) x hx
      | some p =>
        simp only [false_iff, reduceCtorEq]
        intro hall
        have := ih.2 (fun x hx => hall x (List.mem_cons_of_mem _ hx))
        rw [hr] at this
        exact absurd this (by simp)

theorem freeScan_append (addr : Nat) (pre : List Block) (b : Block) (post : List Block)
    (hpre : ∀ x ∈ pre, ¬ Hit addr x) (hb : Hit addr b) :
    freeScan addr (pre ++ b :: post)
      = some (pre ++ ⟨b.size, true, b.start_addr⟩ :: post) := by
  have hb' : b.start_addr = addr ∧ b.is_free = false := hb
  induction pre with
  | nil =>
    show freeScan addr (b :: post) = _
    rw [freeScan, if_pos hb']
    simp
  | cons x pre ih =>
    have hx : ¬ (x.start_addr = addr ∧ x.is_free = false) := hpre x (List.mem_cons_self _ _)
    have := ih (fun y hy => hpre y (List.mem_cons_of_mem _ hy))
    show freeScan addr (x :: (pre ++ b :: post)) = _
    rw [freeScan, if_neg hx, this]
    simp

theorem freeScan_some (addr : Nat) (l l' : List Block) (h : freeScan addr l = some l') :
    ∃ pre b post, l = pre ++ b :: post ∧ (∀ x ∈ pre, ¬ Hit addr x) ∧ Hit addr b ∧
      l' = pre ++ ⟨b.size, true, b.start_addr⟩ :: post := by
  induction l generalizing l' with
  | nil => simp [freeScan] at h
  | cons b rest ih =>
    by_cases hb : b.start_addr = addr ∧ b.is_free = false
    · refine ⟨[], b, rest, rfl, by simp, hb, ?_⟩
      rw [freeScan, if_pos hb] at h
      simpa using h.symm
    · rw [freeScan, if_neg hb] at h
      cases hr : freeScan addr rest with
      | none => rw [hr] at h; simp at h
      | some r0 =>
        rw [hr] at h
        simp only [Option.some.injEq] at h
        obtain ⟨pre, c, post, hl, hpre, hc, hl'⟩ := ih r0 hr
        refine ⟨b :: pre, c, post, by simp [hl], ?_, hc, ?_⟩
        · intro x hx
          rcases List.mem_cons.1 hx with rfl | hx
          · exact hb
          · exact hpre x hx
        · rw [← h, hl']; simp

/-! ## Tilings -/

theorem tilesFrom_le {a T : Nat} {l : List Block} (h : TilesFrom a T l) : a ≤ T := by
  induction l generalizing a with
  | nil => exact le_of_eq h
  | cons b rest ih =>
    have := ih h.2
    omega

theorem tilesFrom_append {a T : Nat} {l1 l2 : List Block} :
    TilesFrom a T (l1 ++ l2) ↔ ∃ m, TilesFrom a m l1 ∧ TilesFrom m T l2 := by
  induction l1 generalizing a with
  | nil =>
    constructor
    · intro h; exact ⟨a, rfl, h⟩
    · rintro ⟨m, hm, h⟩
      have : a = m := hm
      subst this; exact h
  | cons b rest ih =>
    constructor
    · rintro ⟨hb, h⟩
      obtain ⟨m, h1, h2⟩ := ih.1 h
      exact ⟨m, ⟨hb, h1⟩, h2⟩
    · rintro ⟨m, ⟨hb, h1⟩, h2⟩
      exact ⟨hb, ih.2 ⟨m, h1, h2⟩⟩

theorem tilesFrom_start_ge {a T : Nat} {l : List Block} (h : TilesFrom a T l) :
    ∀ x ∈ l, a ≤ x.start_addr ∧ x.start_addr + x.size ≤ T := by
  induction l generalizing a with
  | nil => simp
  | cons b rest ih =>
    intro x hx
    have hle := tilesFrom_le h.2
    rcases List.mem_cons.1 hx with rfl | hx
    · have := h.1; omega
    · have := ih h.2 x hx; omega

theorem tilesFrom_sorted {a T : Nat} {l : List Block} (h : TilesFrom a T l) :
    List.Sorted startLe l := by
  induction l generalizing a with
  | nil => exact List.sorted_nil
  | cons b rest ih =>
    refine List.sorted_cons.2 ⟨?_, ih h.2⟩
    intro x hx
    have := (tilesFrom_start_ge h.2 x hx).1
    have := h.1
    show b.start_addr ≤ x.start_addr
    omega

theorem tilesFrom_strict {a T : Nat} {l : List Block} (h : TilesFrom a T l)
    (hpos : PosSizes l) : StrictAscending l := by
  induction l generalizing a with
  | nil => exact List.Pairwise.nil
  | cons b rest ih =>
    refine List.pairwise_cons.2 ⟨?_, ih h.2 (fun x hx => hpos x (List.mem_cons_of_mem _ hx))⟩
    intro x hx
    have := (tilesFrom_start_ge h.2 x hx).1
    have := h.1
    have := hpos b (List.mem_cons_self _ _)
    omega

theorem tilesFrom_contiguous {a T : Nat} {l : List Block} (h : TilesFrom a T l) :
    Contiguous l := by
  induction l generalizing a with
  | nil => exact List.chain'_nil
  | cons b rest ih =>
    cases rest with
    | nil => exact List.chain'_singleton _
    | cons c rest =>
      refine List.chain'_cons.2 ⟨?_, ih h.2⟩
      have := h.1
      have := h.2.1
      omega

theorem tilesFrom_getLast {a T : Nat} {l : List Block} (h : TilesFrom a T l)
    (hne : l ≠ []) : l.getLast?.map (fun b => b.start_addr + b.size) = some T := by
  induction l generalizing a with
  | nil => exact absurd rfl hne
  | cons b rest ih =>
    cases rest with
    | nil =>
      have h1 := h.1
      have h2 : a + b.size = T := h.2
      simp only [List.getLast?_singleton, Option.map_some', Option.some.injEq]
      omega
    | cons c rest =>
      have := ih h.2 (by simp)
      simpa [List.getLast?_cons_cons] using this

theorem sortBlocks_of_tiles {a T : Nat} {l : List Block} (h : TilesFrom a T l) :
    sortBlocks l = l :=
  List.Sorted.insertionSort_eq (tilesFrom_sorted h)

theorem tilesFrom_split {a T : Nat} {pre post : List Block} {b : Block} :
    TilesFrom a T (pre ++ b :: post) ↔
      TilesFrom a b.start_addr pre ∧ TilesFrom (b.start_addr + b.size) T post := by
  rw [tilesFrom_append]
  constructor
  · rintro ⟨m, h1, hb, h2⟩
    subst hb
    exact ⟨h1, h2⟩
  · rintro ⟨h1, h2⟩
    exact ⟨b.start_addr, h1, rfl, h2⟩

/-! ## The merging loop on a tiling -/

theorem mergeLoop_head (b : Block) (rest : List Block) :
    ∃ x tl, mergeLoop b rest = x :: tl ∧ x.is_free = b.is_free ∧
      x.start_addr = b.start_addr := by
  induction rest generalizing b with
  | nil => exact ⟨b, [], rfl, rfl, rfl⟩
  | cons c rest ih =>
    by_cases h : b.is_free = true ∧ c.is_free = true ∧
        (b.start_addr + b.size) % SIZE_MOD = c.start_addr
    · rw [mergeLoop, if_pos h]
      obtain ⟨x, tl, hx, h1, h2⟩ := ih ⟨(b.size + c.size) % SIZE_MOD, b.is_free, b.start_addr⟩
      exact ⟨x, tl, hx, h1, h2⟩
    · rw [mergeLoop, if_neg h]
      exact ⟨b, mergeLoop c rest, rfl, rfl, rfl⟩

theorem mergeLoop_tiles {a T : Nat} (hT : T < SIZE_MOD) (b : Block) (rest : List Block)
    (h : TilesFrom a T (b :: rest)) : TilesFrom a T (mergeLoop b rest) := by
  induction rest generalizing b a with
  | nil => exact h
  | cons c rest ih =>
    obtain ⟨hb, hc, hrest⟩ := h
    have hle := tilesFrom_le hrest
    by_cases hm : b.is_free = true ∧ c.is_free = true ∧
        (b.start_addr + b.size) % SIZE_MOD = c.start_addr
    · rw [mergeLoop, if_pos hm]
      apply ih
      refine ⟨hb, ?_⟩
      show TilesFrom (a + (b.size + c.size) % SIZE_MOD) T rest
      rw [Nat.mod_eq_of_lt (by omega), ← Nat.add_assoc]
      exact hrest
    · rw [mergeLoop, if_neg hm]
      exact ⟨hb, ih c ⟨hc, hrest⟩⟩

theorem mergeLoop_pos {a T : Nat} (hT : T < SIZE_MOD) (b : Block) (rest : List Block)
    (h : TilesFrom a T (b :: rest)) (hpos : PosSizes (b :: rest)) :
    PosSizes (mergeLoop b rest) := by
  induction rest generalizing b a with
  | nil => exact hpos
  | cons c rest ih =>
    obtain ⟨hb, hc, hrest⟩ := h
    have hle := tilesFrom_le hrest
    have hbpos := hpos b (List.mem_cons_self _ _)
    by_cases hm : b.is_free = true ∧ c.is_free = true ∧
        (b.start_addr + b.size) % SIZE_MOD = c.start_addr
    · rw [mergeLoop, if_pos hm]
      have hsz : (b.size + c.size) % SIZE_MOD = b.size + c.size :=
        Nat.mod_eq_of_lt (by omega)
      apply ih (a := a)
      · refine ⟨hb, ?_⟩
        show TilesFrom (a + (b.size + c.size) % SIZE_MOD) T rest
        rw [hsz, ← Nat.add_assoc]
        exact hrest
      · intro x hx
        rcases List.mem_cons.1 hx with rfl | hx
        · show 0 < (b.size + c.size) % SIZE_MOD
          omega
        · exact hpos x (List.mem_cons_of_mem _ (List.mem_cons_of_mem _ hx))
    · rw [mergeLoop, if_neg hm]
      intro x hx
      rcases List.mem_cons.1 hx with rfl | hx
      · exact hbpos
      · exact ih c ⟨hc, hrest⟩ (fun y hy => hpos y (List.mem_cons_of_mem _ hy)) x hx

theorem mergeLoop_noadj {a T : Nat} (hT : T < SIZE_MOD) (b : Block) (rest : List Block)
    (h : TilesFrom a T (b :: rest)) : NoAdjFree (mergeLoop b rest) := by
  induction rest generalizing b a with
  | nil => exact List.chain'_singleton _
  | cons c rest ih =>
    obtain ⟨hb, hc, hrest⟩ := h
    have hle := tilesFrom_le hrest
    by_cases hm : b.is_free = true ∧ c.is_free = true ∧
        (b.start_addr + b.size) % SIZE_MOD = c.start_addr
    · rw [mergeLoop, if_pos hm]
      apply ih (a := a)
      refine ⟨hb, ?_⟩
      show TilesFrom (a + (b.size + c.size) % SIZE_MOD) T rest
      rw [Nat.mod_eq_of_lt (by omega), ← Nat.add_assoc]
      exact hrest
    · rw [mergeLoop, if_neg hm]
      obtain ⟨x, tl, hx, hfree, _⟩ := mergeLoop_head c rest
      have hrec := ih c ⟨hc, hrest⟩
      rw [hx] at hrec ⊢
      refine List.chain'_cons.2 ⟨?_, hrec⟩
      rintro ⟨hbf, hxf⟩
      apply hm
      refine ⟨hbf, by rw [← hfree]; exact hxf, ?_⟩
      rw [Nat.mod_eq_of_lt (by omega)]
      omega

theorem mergeLoop_noop (b : Block) (rest : List Block) (h : NoAdjFree (b :: rest)) :
    mergeLoop b rest = b :: rest := by
  induction rest generalizing b with
  | nil => rfl
  | cons c rest ih =>
    have hbc := (List.chain'_cons.1 h).1
    have hm : ¬ (b.is_free = true ∧ c.is_free = true ∧
        (b.start_addr + b.size) % SIZE_MOD = c.start_addr) := fun hm => hbc ⟨hm.1, hm.2.1⟩
    rw [mergeLoop, if_neg hm, ih c (List.chain'_cons.1 h).2]

/-! ## Neighbours that are not both free -/

theorem noAdjFree_cons_mono {b b' : Block} {post : List Block}
    (h : NoAdjFree (b :: post)) (hf : b'.is_free = true → b.is_free = true) :
    NoAdjFree (b' :: post) := by
  cases post with
  | nil => exact List.chain'_singleton _
  | cons c post =>
    obtain ⟨h1, h2⟩ := List.chain'_cons.1 h
    exact List.chain'_cons.2 ⟨fun hh => h1 ⟨hf hh.1, hh.2⟩, h2⟩

theorem noAdjFree_snoc_mono {b b' : Block} {pre : List Block}
    (h : NoAdjFree (pre ++ [b])) (hf : b'.is_free = true → b.is_free = true) :
    NoAdjFree (pre ++ [b']) := by
  unfold NoAdjFree at h ⊢
  rw [List.chain'_append] at h ⊢
  refine ⟨h.1, List.chain'_singleton _, ?_⟩
  intro x hx y hy
  simp only [List.head?_cons, Option.mem_def, Option.some.injEq] at hy
  subst hy
  intro hh
  exact h.2.2 x hx b (by simp) ⟨hh.1, hf hh.2⟩

/-! ## The invariant is kept -/

theorem wf_new {T : Nat} (hT : T < SIZE_MOD) : WF T (MemoryManager.new T).memory_blocks := by
  refine ⟨hT, by simp [MemoryManager.new], ⟨rfl, by show 0 + T = T; omega⟩, ?_,
    List.chain'_singleton _⟩
  rcases Nat.eq_zero_or_pos T with h0 | hpos
  · right; subst h0; rfl
  · left
    intro b hb
    have : b = ⟨T, true, 0⟩ := by simpa [MemoryManager.new] using hb
    subst this; exact hpos

theorem splitBlock_tiles {size T : Nat} {b : Block} (hfit : size ≤ b.size)
    (hT : b.start_addr + b.size < SIZE_MOD) (hr : b.start_addr + b.size = T) :
    TilesFrom b.start_addr T (splitBlock size b) := by
  unfold splitBlock
  split
  · exact ⟨rfl, hr⟩
  · refine ⟨rfl, ?_, ?_⟩
    · show (b.start_addr + size) % SIZE_MOD = b.start_addr + size
      exact Nat.mod_eq_of_lt (by omega)
    · show b.start_addr + size + (b.size - size) = T
      omega

theorem wf_allocScan {T size a : Nat} {l l' : List Block} (hwf : WF T l) (hsize : 0 < size)
    (h : allocScan size l = some (a, l')) : WF T l' := by
  obtain ⟨pre, b, post, hl, _, hb, _, hl'⟩ := allocScan_some size l a l' h
  obtain ⟨hbf, hbs⟩ := hb
  subst hl hl'
  obtain ⟨hT, _, htiles, hpos, hnoadj⟩ := hwf
  obtain ⟨ht1, ht2⟩ := tilesFrom_split.1 htiles
  have hle := tilesFrom_le ht2
  refine ⟨hT, ?_, ?_, ?_, ?_⟩
  · unfold splitBlock
    split <;> simp
  · rw [List.append_assoc, tilesFrom_append]
    exact ⟨_, ht1, tilesFrom_append.2
      ⟨_, splitBlock_tiles hbs (by omega) rfl, ht2⟩⟩
  · left
    rcases hpos with hpos | hsingle
    · intro x hx
      simp only [List.mem_append] at hx
      rcases hx with (hx | hx) | hx
      · exact hpos x (by simp [hx])
      · have hbpos := hpos b (by simp)
        unfold splitBlock at hx
        split at hx
        · have : x = ⟨b.size, false, b.start_addr⟩ := by simpa using hx
          subst this; exact hbpos
        · rename_i hne
          simp only [List.mem_cons, List.mem_singleton, List.not_mem_nil, or_false] at hx
          rcases hx with rfl | rfl
          · exact hsize
          · show 0 < b.size - size
            omega
      · exact hpos x (by simp [hx])
    · exfalso
      have hmem : b ∈ [(⟨0, true, 0⟩ : Block)] := by rw [← hsingle]; simp
      have : b = ⟨0, true, 0⟩ := by simpa using hmem
      subst this
      simp at hbs
      omega
  · have hsplit := List.chain'_split.1 hnoadj
    unfold splitBlock
    split
    · show NoAdjFree (pre ++ [_] ++ post)
      rw [List.append_assoc]
      exact List.chain'_split.2
        ⟨noAdjFree_snoc_mono hsplit.1 (by simp), noAdjFree_cons_mono hsplit.2 (by simp)⟩
    · show NoAdjFree (pre ++ [_, _] ++ post)
      rw [List.append_assoc]
      refine List.chain'_split.2 ⟨noAdjFree_snoc_mono hsplit.1 (by simp), ?_⟩
      refine List.chain'_cons.2 ⟨by simp, ?_⟩
      exact noAdjFree_cons_mono hsplit.2 (fun _ => hbf)

theorem wf_alloc {T size : Nat} {m : MemoryManager} (hwf : WF T m.memory_blocks)
    (hsize : 0 < size) : WF T (m.alloc size).2.memory_blocks := by
  unfold MemoryManager.alloc
  cases h : allocScan size m.memory_blocks with
  | none => exact hwf
  | some p =>
    obtain ⟨a, l'⟩ := p
    exact wf_allocScan hwf hsize h

theorem wf_free {T : Nat} {m : MemoryManager} (hwf : WF T m.memory_blocks) (addr : Nat) :
    WF T (m.free addr).2.memory_blocks := by
  unfold MemoryManager.free
  cases h : freeScan addr m.memory_blocks with
  | none => exact hwf
  | some l1 =>
    obtain ⟨pre, b, post, hl, _, hb, hl1⟩ := freeScan_some addr _ l1 h
    obtain ⟨hT, _, htiles, hpos, _⟩ := hwf
    rw [hl] at htiles hpos
    have htiles1 : TilesFrom 0 T l1 := by
      rw [hl1]
      exact (tilesFrom_split (b := ⟨b.size, true, b.start_addr⟩)).2
        ((tilesFrom_split (b := b)).1 htiles)
    have hpos1 : PosSizes l1 := by
      rcases hpos with hpos | hsingle
      · rw [hl1]
        intro x hx
        simp only [List.mem_append, List.mem_cons] at hx
        rcases hx with hx | rfl | hx
        · exact hpos x (by simp [hx])
        · exact hpos b (by simp)
        · exact hpos x (by simp [hx])
      · exfalso
        have hmem : b ∈ [(⟨0, true, 0⟩ : Block)] := by rw [← hsingle]; simp
        have : b = ⟨0, true, 0⟩ := by simpa using hmem
        subst this
        exact absurd hb.2 (by simp)
    show WF T (merge_free_blocks l1)
    unfold merge_free_blocks
    rw [sortBlocks_of_tiles htiles1]
    cases l1 with
    | nil => simp at hl1
    | cons x rest =>
      obtain ⟨y, tl, hy, _, _⟩ := mergeLoop_head x rest
      exact ⟨hT, by show mergeLoop x rest ≠ []; rw [hy]; simp,
        mergeLoop_tiles hT x rest htiles1,
        Or.inl (mergeLoop_pos hT x rest htiles1 hpos1), mergeLoop_noadj hT x rest htiles1⟩

theorem wf_apply {T : Nat} {m : MemoryManager} (hwf : WF T m.memory_blocks) (op : MemOp)
    (hop : op.valid) : WF T (op.apply m).memory_blocks := by
  cases op with
  | alloc size => exact wf_alloc hwf hop
  | free a => exact wf_free hwf a

theorem wf_runOps {T : Nat} (ops : List MemOp) {m : MemoryManager}
    (hwf : WF T m.memory_blocks) (hops : ∀ op ∈ ops, op.valid) :
    WF T (runOps ops m).memory_blocks := by
  induction ops generalizing m with
  | nil => exact hwf
  | cons op ops ih =>
    show WF T (runOps ops (op.apply m)).memory_blocks
    exact ih (wf_apply hwf op (hops op (List.mem_cons_self _ _)))
      (fun o ho => hops o (List.mem_cons_of_mem _ ho))

theorem wf_reachable {T : Nat} (hT : T < SIZE_MOD) {m : MemoryManager}
    (h : Reachable T m) : WF T m.memory_blocks := by
  obtain ⟨ops, hops, rfl⟩ := h
  exact wf_runOps ops (wf_new hT) hops

theorem alloc_total (m : MemoryManager) (size : Nat) :
    (m.alloc size).2.total_memory = m.total_memory := by
  unfold MemoryManager.alloc
  split <;> rfl

theorem free_total (m : MemoryManager) (addr : Nat) :
    (m.free addr).2.total_memory = m.total_memory := by
  unfold MemoryManager.free
  split <;> rfl

theorem runOps_total (ops : List MemOp) (m : MemoryManager) :
    (runOps ops m).total_memory = m.total_memory := by
  induction ops generalizing m with
  | nil => rfl
  | cons op ops ih =>
    show (runOps ops (op.apply m)).total_memory = _
    rw [ih]
    cases op with
    | alloc size => exact alloc_total m size
    | free a => exact free_total m a

/-! ## From the invariant to the tiling of the statements, and back -/

theorem tilesFrom_head {a T : Nat} {l : List Block} (h : TilesFrom a T l) (hne : l ≠ []) :
    l.head?.map Block.start_addr = some a := by
  cases l with
  | nil => exact absurd rfl hne
  | cons b rest => simp [h.1]

theorem wf_tiling {T : Nat} {l : List Block} (h : WF T l) : Tiling T l := by
  refine ⟨?_, tilesFrom_head h.tiles h.ne, tilesFrom_contiguous h.tiles,
    tilesFrom_getLast h.tiles h.ne⟩
  rcases h.pos with hpos | hs
  · exact tilesFrom_strict h.tiles hpos
  · rw [hs]; exact List.pairwise_singleton _ _

theorem tilesFrom_of_chain {a T : Nat} {l : List Block} (hne : l ≠ [])
    (hhead : l.head?.map Block.start_addr = some a) (hc : Contiguous l)
    (hlast : l.getLast?.map (fun b => b.start_addr + b.size) = some T) :
    TilesFrom a T l := by
  induction l generalizing a with
  | nil => exact absurd rfl hne
  | cons b rest ih =>
    have hb : b.start_addr = a := by simpa using hhead
    cases rest with
    | nil =>
      refine ⟨hb, ?_⟩
      have : b.start_addr + b.size = T := by simpa using hlast
      show a + b.size = T
      omega
    | cons c rest =>
      obtain ⟨hbc, hrest⟩ := List.chain'_cons.1 hc
      refine ⟨hb, ih (by simp) ?_ hrest ?_⟩
      · simp only [List.head?_cons, Option.map_some', Option.some.injEq]
        omega
      · simpa [List.getLast?_cons_cons] using hlast

theorem tiling_tilesFrom {T : Nat} {l : List Block} (h : Tiling T l) :
    l ≠ [] ∧ TilesFrom 0 T l := by
  obtain ⟨_, hhead, hc, hlast⟩ := h
  have hne : l ≠ [] := by
    intro hnil
    subst hnil
    simp at hhead
  exact ⟨hne, tilesFrom_of_chain hne hhead hc hlast⟩

/-! ## The statistics loop -/

theorem usedBytes_cons (b : Block) (l : List Block) :
    usedBytes (b :: l) = (if b.is_free = true then 0 else b.size) + usedBytes l := by
  unfold usedBytes
  cases hb : b.is_free <;> simp [List.filter_cons, hb]

theorem freeBytes_cons (b : Block) (l : List Block) :
    freeBytes (b :: l) = (if b.is_free = true then b.size else 0) + freeBytes l := by
  unfold freeBytes
  cases hb : b.is_free <;> simp [List.filter_cons, hb]

theorem tilesFrom_bytes {a T : Nat} {l : List Block} (h : TilesFrom a T l) :
    a + usedBytes l + freeBytes l = T := by
  induction l generalizing a with
  | nil =>
    have : a = T := h
    simp [usedBytes, freeBytes, this]
  | cons b rest ih =>
    have := ih h.2
    rw [usedBytes_cons, freeBytes_cons]
    split <;> omega

theorem stats_fold (l : List Block) (u f : Nat)
    (h : u + f + usedBytes l + freeBytes l < SIZE_MOD) :
    l.foldl statsStep (u, f) = (u + usedBytes l, f + freeBytes l) := by
  induction l generalizing u f with
  | nil => simp [usedBytes, freeBytes]
  | cons b rest ih =>
    rw [usedBytes_cons, freeBytes_cons] at h ⊢
    rw [List.foldl_cons]
    by_cases hb : b.is_free = true
    · simp only [if_pos hb] at h ⊢
      have hstep : statsStep (u, f) b = (u, f + b.size) := by
        unfold statsStep
        rw [if_pos hb]
        show (u, (f + b.size) % SIZE_MOD) = _
        rw [Nat.mod_eq_of_lt (by omega)]
      rw [hstep, ih u (f + b.size) (by omega)]
      simp only [Prod.mk.injEq]
      omega
    · simp only [if_neg hb] at h ⊢
      have hstep : statsStep (u, f) b = (u + b.size, f) := by
        unfold statsStep
        rw [if_neg hb]
        show ((u + b.size) % SIZE_MOD, f) = _
        rw [Nat.mod_eq_of_lt (by omega)]
      rw [hstep, ih (u + b.size) f (by omega)]
      simp only [Prod.mk.injEq]
      omega

/-! ## The merge pass after a release -/

theorem block_eta_free {R : Block} (h : R.is_free = true) :
    (⟨R.size, true, R.start_addr⟩ : Block) = R := by
  cases R
  simp only at h
  subst h
  rfl

theorem absorbNext_flip (R : Block) (post : List Block) :
    absorbNext ⟨R.size, true, R.start_addr⟩ post = absorbNext R post := by
  cases post <;> rfl

theorem mergeLoop_absorb {T : Nat} (hT : T < SIZE_MOD) (R : Block) (post : List Block)
    (hRf : R.is_free = true) (htiles : TilesFrom R.start_addr T (R :: post))
    (hnoadj : NoAdjFree post) :
    mergeLoop R post = (absorbNext R post).1 :: (absorbNext R post).2 := by
  cases post with
  | nil =>
    show [R] = [⟨R.size, true, R.start_addr⟩]
    rw [block_eta_free hRf]
  | cons n ps =>
    obtain ⟨_, hn, hps⟩ := htiles
    have hle := tilesFrom_le hps
    by_cases hnf : n.is_free = true
    · have hm : R.is_free = true ∧ n.is_free = true ∧
          (R.start_addr + R.size) % SIZE_MOD = n.start_addr := by
        refine ⟨hRf, hnf, ?_⟩
        rw [Nat.mod_eq_of_lt (by omega)]
        omega
      rw [mergeLoop, if_pos hm, Nat.mod_eq_of_lt (by omega), hRf]
      rw [mergeLoop_noop _ _ (noAdjFree_cons_mono hnoadj (fun _ => hnf))]
      simp [absorbNext, hnf]
    · have hm : ¬ (R.is_free = true ∧ n.is_free = true ∧
          (R.start_addr + R.size) % SIZE_MOD = n.start_addr) := fun h => hnf h.2.1
      rw [mergeLoop, if_neg hm, mergeLoop_noop _ _ hnoadj]
      simp [absorbNext, hnf, block_eta_free hRf]

theorem mergeBlocks_skip (init : List Block) (p : Block) (tail : List Block)
    (h : NoAdjFree (init ++ [p])) :
    mergeBlocks (init ++ p :: tail) = init ++ mergeLoop p tail := by
  induction init with
  | nil => rfl
  | cons x init ih =>
    cases init with
    | nil =>
      have hxp := (List.chain'_cons.1 h).1
      have hm : ¬ (x.is_free = true ∧ p.is_free = true ∧
          (x.start_addr + x.size) % SIZE_MOD = p.start_addr) := fun hm => hxp ⟨hm.1, hm.2.1⟩
      show mergeLoop x (p :: tail) = [x] ++ mergeLoop p tail
      rw [mergeLoop, if_neg hm]
      rfl
    | cons y init =>
      obtain ⟨hxy, hrest⟩ := List.chain'_cons.1 h
      have hm : ¬ (x.is_free = true ∧ y.is_free = true ∧
          (x.start_addr + x.size) % SIZE_MOD = y.start_addr) := fun hm => hxy ⟨hm.1, hm.2.1⟩
      have := ih hrest
      show mergeLoop x (y :: (init ++ p :: tail)) = x :: (y :: init ++ mergeLoop p tail)
      rw [mergeLoop, if_neg hm]
      exact congrArg (x :: ·) this

theorem mergeBlocks_release {T : Nat} (hT : T < SIZE_MOD) (pre : List Block) (R : Block)
    (post : List Block) (htiles : TilesFrom 0 T (pre ++ R :: post))
    (hnoadj : NoAdjFree (pre ++ R :: post)) :
    mergeBlocks (pre ++ ⟨R.size, true, R.start_addr⟩ :: post) = releaseSpec pre R post := by
  obtain ⟨hpre, hpost⟩ := List.chain'_split.1 hnoadj
  have hpostc : NoAdjFree post := List.Chain'.tail hpost
  obtain ⟨ht1, ht2⟩ := tilesFrom_split.1 htiles
  have hle := tilesFrom_le ht2
  have hR' : TilesFrom R.start_addr T ((⟨R.size, true, R.start_addr⟩ : Block) :: post) :=
    ⟨rfl, ht2⟩
  rcases List.eq_nil_or_concat pre with hnil | ⟨init, p, hconcat⟩
  · subst hnil
    show mergeLoop _ post = _
    rw [mergeLoop_absorb hT _ post rfl hR' hpostc, absorbNext_flip]
    rfl
  · rw [List.concat_eq_append] at hconcat
    subst hconcat
    have hinit : NoAdjFree (init ++ [p]) := List.Chain'.left_of_append hpre
    obtain ⟨_, hp⟩ := tilesFrom_split.1 ht1
    have hpR : p.start_addr + p.size = R.start_addr := hp
    rw [List.append_assoc, List.singleton_append, mergeBlocks_skip init p _ hinit]
    unfold releaseSpec
    have hlast : (init ++ [p]).getLast? = some p := by simp
    have hdrop : (init ++ [p]).dropLast = init := by simp
    simp only [hlast, hdrop]
    by_cases hpf : p.is_free = true
    · have hm : p.is_free = true ∧ (⟨R.size, true, R.start_addr⟩ : Block).is_free = true ∧
          (p.start_addr + p.size) % SIZE_MOD
            = (⟨R.size, true, R.start_addr⟩ : Block).start_addr := by
        refine ⟨hpf, rfl, ?_⟩
        rw [Nat.mod_eq_of_lt (by omega)]
        exact hpR
      rw [mergeLoop, if_pos hm, if_pos hpf, hpf]
      show init ++ mergeLoop ⟨(p.size + R.size) % SIZE_MOD, true, p.start_addr⟩ post = _
      rw [Nat.mod_eq_of_lt (by omega)]
      have hP' : TilesFrom p.start_addr T
          ((⟨p.size + R.size, true, p.start_addr⟩ : Block) :: post) := by
        refine ⟨rfl, ?_⟩
        show TilesFrom (p.start_addr + (p.size + R.size)) T post
        rw [← Nat.add_assoc, hpR]
        exact ht2
      rw [mergeLoop_absorb hT _ post rfl hP' hpostc]
      cases post with
      | nil => rfl
      | cons n ps =>
        by_cases hnf : n.is_free = true
        · simp [absorbNext, hnf, Nat.add_assoc]
        · simp [absorbNext, hnf]
    · have hm : ¬ (p.is_free = true ∧ (⟨R.size, true, R.start_addr⟩ : Block).is_free = true ∧
          (p.start_addr + p.size) % SIZE_MOD
            = (⟨R.size, true, R.start_addr⟩ : Block).start_addr) := fun h => hpf h.1
      rw [mergeLoop, if_neg hm, if_neg hpf, mergeLoop_absorb hT _ post rfl hR' hpostc,
        absorbNext_flip]
      simp

theorem mergeLoop_occupied (b : Block) (rest : List Block) :
    ∀ y ∈ mergeLoop b rest, y.is_free = false → y ∈ b :: rest := by
  induction rest generalizing b with
  | nil => intro y hy _; exact hy
  | cons c rest ih =>
    intro y hy hyf
    by_cases hm : b.is_free = true ∧ c.is_free = true ∧
        (b.start_addr + b.size) % SIZE_MOD = c.start_addr
    · rw [mergeLoop, if_pos hm] at hy
      have := ih _ y hy hyf
      rcases List.mem_cons.1 this with rfl | hmem
      · exact absurd hyf (by simp [hm.1])
      · exact List.mem_cons_of_mem _ (List.mem_cons_of_mem _ hmem)
    · rw [mergeLoop, if_neg hm] at hy
      rcases List.mem_cons.1 hy with rfl | hmem
      · exact List.mem_cons_self _ _
      · exact List.mem_cons_of_mem _ (ih c y hmem hyf)

/-! ## Results of `free` -/

theorem free_of_noHit (m : MemoryManager) (addr : Nat)
    (h : ∀ b ∈ m.memory_blocks, ¬ Hit addr b) : m.free addr = (false, m) := by
  unfold MemoryManager.free
  rw [(freeScan_none addr m.memory_blocks).2 h]

theorem free_of_scan (m : MemoryManager) (addr : Nat) (l1 : List Block)
    (h : freeScan addr m.memory_blocks = some l1) :
    m.free addr = (true, ⟨merge_free_blocks l1, m.total_memory⟩) := by
  unfold MemoryManager.free
  rw [h]

theorem free_true_scan (m : MemoryManager) (addr : Nat) (h : (m.free addr).1 = true) :
    ∃ l1, freeScan addr m.memory_blocks = some l1 := by
  cases hs : freeScan addr m.memory_blocks with
  | none =>
    have hall := (freeScan_none addr m.memory_blocks).1 hs
    rw [free_of_noHit m addr hall] at h
    exact absurd h (by simp)
  | some l1 => exact ⟨l1, rfl⟩

theorem noHit_after_release {T : Nat} {l l1 : List Block} (addr : Nat) (hwf : WF T l)
    (hs : freeScan addr l = some l1) : ∀ y ∈ merge_free_blocks l1, ¬ Hit addr y := by
  obtain ⟨pre, R, post, hl, _, hR, hl1⟩ := freeScan_some addr l l1 hs
  have hstrict : StrictAscending l := (wf_tiling hwf).1
  rw [hl] at hstrict
  obtain ⟨_, hpost, hcross⟩ := List.pairwise_append.1 hstrict
  have hpostR := (List.pairwise_cons.1 hpost).1
  have htiles1 : TilesFrom 0 T l1 := by
    have := hwf.tiles
    rw [hl] at this
    rw [hl1]
    exact (tilesFrom_split (b := ⟨R.size, true, R.start_addr⟩)).2
      ((tilesFrom_split (b := R)).1 this)
  intro y hy hhit
  unfold merge_free_blocks at hy
  rw [sortBlocks_of_tiles htiles1] at hy
  have hmem : y ∈ l1 := by
    cases l1 with
    | nil => simp [mergeBlocks] at hy
    | cons x rest => exact mergeLoop_occupied x rest y hy hhit.2
  rw [hl1] at hmem
  have hya : y.start_addr = R.start_addr := by rw [hhit.1, hR.1]
  simp only [List.mem_append, List.mem_cons] at hmem
  rcases hmem with hmem | rfl | hmem
  · have := hcross y hmem R (List.mem_cons_self _ _)
    omega
  · exact absurd hhit.2 (by simp)
  · have := hpostR y hmem
    omega

/-! # The claims -/

/-- C1 (tiling invariant).  For every total `T` that is a `size_t` and every
sequence of `alloc(size)` calls with `size > 0` and `free(address)` calls with
any address, applied to a fresh `MemoryManager(T)`, the resulting block list
has strictly ascending starts, its first block starts at 0, every block ends
where its successor starts, and the last block ends at `T`. -/
theorem tiling_invariant (T : Nat) (hT : T < SIZE_MOD) (ops : List MemOp)
    (hops : ∀ op ∈ ops, op.valid) :
    StrictAscending (runOps ops (MemoryManager.new T)).memory_blocks ∧
    (runOps ops (MemoryManager.new T)).memory_blocks.head?.map Block.start_addr = some 0 ∧
    Contiguous (runOps ops (MemoryManager.new T)).memory_blocks ∧
    (runOps ops (MemoryManager.new T)).memory_blocks.getLast?.map
      (fun b => b.start_addr + b.size) = some T :=
  wf_tiling (wf_runOps ops (wf_new hT) hops)

/-- Witness of C1: the tiling after the calls `mixedCalls` on a fresh manager
of total 100. -/
theorem tiling_invariant_witness :
    (100 < SIZE_MOD ∧ ∀ op ∈ mixedCalls, op.valid) ∧
    StrictAscending (runOps mixedCalls (MemoryManager.new 100)).memory_blocks ∧
    (runOps mixedCalls (MemoryManager.new 100)).memory_blocks.head?.map Block.start_addr
      = some 0 ∧
    Contiguous (runOps mixedCalls (MemoryManager.new 100)).memory_blocks ∧
    (runOps mixedCalls (MemoryManager.new 100)).memory_blocks.getLast?.map
      (fun b => b.start_addr + b.size) = some 100 :=
  ⟨⟨by decide, by decide⟩, tiling_invariant 100 (by decide) mixedCalls (by decide)⟩

/-- C2 (first fit).  For every block list and every size for which some free
block has at least that size, the list splits as `pre ++ b :: post` with `b` the
first block that is free and large enough; `alloc` returns the start of `b`; an
exact fit only flips `b` to occupied, otherwise `b` is shrunk to `size`, marked
occupied, and a free block of the remaining `b.size - size` bytes starting at
`b.start_addr + size` is put right after it; `pre` and `post` are unchanged.  The
sum `b.start_addr + size` is the `size_t` sum, which is the exact sum whenever
`b` ends inside the `size_t` range. -/
theorem alloc_first_fit (m : MemoryManager) (size : Nat)
    (h : ∃ b ∈ m.memory_blocks, b.is_free = true ∧ size ≤ b.size) :
    ∃ pre b post, m.memory_blocks = pre ++ b :: post ∧
      (∀ x ∈ pre, ¬ (x.is_free = true ∧ size ≤ x.size)) ∧
      (b.is_free = true ∧ size ≤ b.size) ∧
      m.alloc size =
        (b.start_addr,
          ⟨pre ++ (if b.size = size then [⟨b.size, false, b.start_addr⟩]
                   else [⟨size, false, b.start_addr⟩,
                         ⟨b.size - size, true, (b.start_addr + size) % SIZE_MOD⟩]) ++ post,
            m.total_memory⟩) ∧
      (b.start_addr + b.size < SIZE_MOD →
        (b.start_addr + size) % SIZE_MOD = b.start_addr + size) := by
  cases hs : allocScan size m.memory_blocks with
  | none =>
    obtain ⟨b, hb, hfit⟩ := h
    exact absurd hfit ((allocScan_none size m.memory_blocks).1 hs b hb)
  | some p =>
    obtain ⟨a, l'⟩ := p
    obtain ⟨pre, b, post, hl, hpre, hb, ha, hl'⟩ := allocScan_some size _ a l' hs
    refine ⟨pre, b, post, hl, hpre, hb, ?_, ?_⟩
    · unfold MemoryManager.alloc
      rw [hs, ha, hl']
      rfl
    · intro hlt
      have := hb.2
      exact Nat.mod_eq_of_lt (by omega)

/-- Witness of C2: the example of the specification, `alloc(80)` on
`[(0,100,free),(100,50,occ),(150,200,free)]`. -/
theorem alloc_first_fit_witness :
    firstFitExample.alloc 80 = (0, afterFirstFit) ∧
    ∃ pre b post, firstFitExample.memory_blocks = pre ++ b :: post ∧
      (∀ x ∈ pre, ¬ (x.is_free = true ∧ 80 ≤ x.size)) ∧
      (b.is_free = true ∧ 80 ≤ b.size) ∧
      firstFitExample.alloc 80 =
        (b.start_addr,
          ⟨pre ++ (if b.size = 80 then [⟨b.size, false, b.start_addr⟩]
                   else [⟨80, false, b.start_addr⟩,
                         ⟨b.size - 80, true, (b.start_addr + 80) % SIZE_MOD⟩]) ++ post,
            firstFitExample.total_memory⟩) ∧
      (b.start_addr + b.size < SIZE_MOD →
        (b.start_addr + 80) % SIZE_MOD = b.start_addr + 80) :=
  ⟨by decide, alloc_first_fit firstFitExample 80 ⟨⟨100, true, 0⟩, by decide, by decide⟩⟩

/-- C3 (allocation failure).  For every block list and every size, when no free
block has at least that size, `alloc` returns 0 and the manager is unchanged,
whatever the sum of the free sizes is. -/
theorem alloc_failure (m : MemoryManager) (size : Nat)
    (h : ∀ b ∈ m.memory_blocks, b.is_free = true → b.size < size) :
    m.alloc size = (0, m) := by
  have hnone : allocScan size m.memory_blocks = none :=
    (allocScan_none size m.memory_blocks).2
      (fun b hb hfit => absurd (h b hb hfit.1) (by have := hfit.2; omega))
  unfold MemoryManager.alloc
  rw [hnone]

/-- Witness of C3: the state `fragmented` is reached from a fresh manager of
total 100, has 20 free bytes, and `alloc(15)` fails on it. -/
theorem alloc_failure_witness :
    runOps fragmentingCalls (MemoryManager.new 100) = fragmented ∧
    (∀ op ∈ fragmentingCalls, op.valid) ∧
    freeBytes fragmented.memory_blocks = 20 ∧
    (∀ b ∈ fragmented.memory_blocks, b.is_free = true → b.size < 15) ∧
    fragmented.alloc 15 = (0, fragmented) :=
  ⟨by decide, by decide, by decide, by decide, alloc_failure fragmented 15 (by decide)⟩

/-- C4 (release succeeds exactly on occupied starts).  For every block list and
every address, `free` returns true exactly when some occupied block starts at
the address, and when it returns false the manager is unchanged. -/
theorem free_succeeds_iff (m : MemoryManager) (addr : Nat) :
    ((m.free addr).1 = true ↔
      ∃ b ∈ m.memory_blocks, b.start_addr = addr ∧ b.is_free = false) ∧
    ((m.free addr).1 = false → (m.free addr).2 = m) := by
  cases hs : freeScan addr m.memory_blocks with
  | none =>
    have hall := (freeScan_none addr m.memory_blocks).1 hs
    rw [free_of_noHit m addr hall]
    refine ⟨⟨fun h => absurd h (by simp), ?_⟩, fun _ => rfl⟩
    rintro ⟨b, hb, hhit⟩
    exact absurd hhit (hall b hb)
  | some l1 =>
    rw [free_of_scan m addr l1 hs]
    obtain ⟨pre, b, post, hl, _, hb, _⟩ := freeScan_some addr _ l1 hs
    refine ⟨⟨fun _ => ⟨b, by rw [hl]; simp, hb⟩, fun _ => rfl⟩, fun h => absurd h (by simp)⟩

/-- Witness of C4 on `fragmented`: address 50 starts an occupied block, address 40
a free block, address 45 lies inside a block and address 500 is unknown. -/
theorem free_succeeds_iff_witness :
    (fragmented.free 50).1 = true ∧ fragmented.free 40 = (false, fragmented) ∧
    fragmented.free 45 = (false, fragmented) ∧ fragmented.free 500 = (false, fragmented) ∧
    ((fragmented.free 50).1 = true ↔
      ∃ b ∈ fragmented.memory_blocks, b.start_addr = 50 ∧ b.is_free = false) :=
  ⟨by decide, by decide, by decide, by decide, (free_succeeds_iff fragmented 50).1⟩

/-- C5 (successful release).  For every block list that tiles `[0, T)` with `T`
a `size_t` and has no two free neighbours, and every occupied block `R` of it,
`free` on the start of `R` returns true and leaves the list the specification
describes (`releaseSpec`): `R` free, merged with the block before it when that
one was free and with the block after it when that one was free, all other
blocks unchanged. -/
theorem free_postcondition (T : Nat) (m : MemoryManager) (pre : List Block) (R : Block)
    (post : List Block) (hT : T < SIZE_MOD) (htiling : Tiling T m.memory_blocks)
    (hnoadj : NoAdjFree m.memory_blocks) (hl : m.memory_blocks = pre ++ R :: post)
    (hR : R.is_free = false) :
    m.free R.start_addr = (true, ⟨releaseSpec pre R post, m.total_memory⟩) := by
  obtain ⟨_, htiles⟩ := tiling_tilesFrom htiling
  have hstrict : StrictAscending m.memory_blocks := htiling.1
  rw [hl] at htiles hnoadj hstrict
  obtain ⟨_, _, hcross⟩ := List.pairwise_append.1 hstrict
  have hpre : ∀ x ∈ pre, ¬ Hit R.start_addr x := by
    intro x hx hhit
    have := hcross x hx R (List.mem_cons_self _ _)
    have := hhit.1
    omega
  have hscan := freeScan_append R.start_addr pre R post hpre ⟨rfl, hR⟩
  rw [← hl] at hscan
  rw [free_of_scan m R.start_addr _ hscan]
  have htiles1 : TilesFrom 0 T (pre ++ ⟨R.size, true, R.start_addr⟩ :: post) :=
    (tilesFrom_split (b := ⟨R.size, true, R.start_addr⟩)).2
      ((tilesFrom_split (b := R)).1 htiles)
  unfold merge_free_blocks
  rw [sortBlocks_of_tiles htiles1, mergeBlocks_release hT pre R post htiles hnoadj]

/-- Witness of C5: the example of the specification, `free(0)` on
`[(0,80,occ),(80,20,free),(100,50,occ),(150,200,free)]`. -/
theorem free_postcondition_witness :
    (Tiling 350 afterFirstFit.memory_blocks ∧ NoAdjFree afterFirstFit.memory_blocks) ∧
    releaseSpec [] ⟨80, false, 0⟩ [⟨20, true, 80⟩, ⟨50, false, 100⟩, ⟨200, true, 150⟩]
      = firstFitExample.memory_blocks ∧
    afterFirstFit.free 0 =
      (true, ⟨releaseSpec [] ⟨80, false, 0⟩
        [⟨20, true, 80⟩, ⟨50, false, 100⟩, ⟨200, true, 150⟩], 350⟩) :=
  ⟨⟨by simp [Tiling, StrictAscending, Contiguous, afterFirstFit], by simp [NoAdjFree, afterFirstFit]⟩,
    by decide,
    free_postcondition 350 afterFirstFit [] ⟨80, false, 0⟩
      [⟨20, true, 80⟩, ⟨50, false, 100⟩, ⟨200, true, 150⟩] (by decide)
      (by simp [Tiling, StrictAscending, Contiguous, afterFirstFit]) (by simp [NoAdjFree, afterFirstFit])
      rfl rfl⟩

/-- C6 (coalescing completeness).  For every total `T` that is a `size_t` and
every sequence of `alloc(size > 0)` and `free(address)` calls applied to a fresh
`MemoryManager(T)`, no two neighbouring blocks of the resulting list are both
free. -/
theorem coalescing_complete (T : Nat) (hT : T < SIZE_MOD) (ops : List MemOp)
    (hops : ∀ op ∈ ops, op.valid) :
    NoAdjFree (runOps ops (MemoryManager.new T)).memory_blocks :=
  (wf_runOps ops (wf_new hT) hops).noadj

/-- Witness of C6: the calls `fragmentingCalls` followed by the release of both
occupied blocks, on a fresh manager of total 100, end in one free block. -/
theorem coalescing_complete_witness :
    runOps (fragmentingCalls ++ [.free 0, .free 50]) (MemoryManager.new 100)
      = MemoryManager.new 100 ∧
    NoAdjFree
      (runOps (fragmentingCalls ++ [.free 0, .free 50]) (MemoryManager.new 100)).memory_blocks :=
  ⟨by decide,
    coalescing_complete 100 (by decide) (fragmentingCalls ++ [.free 0, .free 50]) (by decide)⟩

/-- C7 (double free).  In every state reached from a fresh `MemoryManager(T)`,
when `free(addr)` returns true, a second `free(addr)` right after it returns
false and leaves the manager as the first call left it. -/
theorem double_free_rejected (T : Nat) (hT : T < SIZE_MOD) (m : MemoryManager)
    (hreach : Reachable T m) (addr : Nat) (h : (m.free addr).1 = true) :
    (m.free addr).2.free addr = (false, (m.free addr).2) := by
  have hwf := wf_reachable hT hreach
  obtain ⟨l1, hs⟩ := free_true_scan m addr h
  rw [free_of_scan m addr l1 hs]
  exact free_of_noHit _ addr (noHit_after_release addr hwf hs)

/-- Witness of C7: releasing address 50 twice in the reachable state
`fragmented`. -/
theorem double_free_rejected_witness :
    (fragmented.free 50).1 = true ∧
    (fragmented.free 50).2.free 50 = (false, (fragmented.free 50).2) :=
  ⟨by decide,
    double_free_rejected 100 (by decide) fragmented ⟨fragmentingCalls, by decide, by decide⟩
      50 (by decide)⟩

/-- C8 (statistics).  For every total `T` that is a `size_t` and every sequence
of `alloc(size > 0)` and `free(address)` calls applied to a fresh
`MemoryManager(T)`, `get_memory_stats` reports `T` as total, the sum of the sizes
of the occupied blocks as used and the sum of the sizes of the free blocks as
free, and used plus free is the total. -/
theorem stats_conservation (T : Nat) (hT : T < SIZE_MOD) (ops : List MemOp)
    (hops : ∀ op ∈ ops, op.valid) :
    (runOps ops (MemoryManager.new T)).get_memory_stats =
      (T, usedBytes (runOps ops (MemoryManager.new T)).memory_blocks,
        freeBytes (runOps ops (MemoryManager.new T)).memory_blocks) ∧
    (runOps ops (MemoryManager.new T)).get_memory_stats.2.1 +
      (runOps ops (MemoryManager.new T)).get_memory_stats.2.2 =
      (runOps ops (MemoryManager.new T)).get_memory_stats.1 := by
  have hwf := wf_runOps ops (wf_new hT) hops
  have hsum := tilesFrom_bytes hwf.tiles
  have hfold := stats_fold (runOps ops (MemoryManager.new T)).memory_blocks 0 0 (by omega)
  have htot : (runOps ops (MemoryManager.new T)).total_memory = T := runOps_total ops _
  have hstats : (runOps ops (MemoryManager.new T)).get_memory_stats =
      (T, usedBytes (runOps ops (MemoryManager.new T)).memory_blocks,
        freeBytes (runOps ops (MemoryManager.new T)).memory_blocks) := by
    unfold MemoryManager.get_memory_stats
    simp only [hfold, htot, Nat.zero_add]
  rw [hstats]
  refine ⟨rfl, ?_⟩
  show usedBytes _ + freeBytes _ = T
  omega

/-- Witness of C8: after `fragmentingCalls` on a fresh manager of total 100 the
statistics are total 100, used 80, free 20. -/
theorem stats_conservation_witness :
    (runOps fragmentingCalls (MemoryManager.new 100)).get_memory_stats = (100, 80, 20) ∧
    (runOps fragmentingCalls (MemoryManager.new 100)).get_memory_stats.2.1 +
      (runOps fragmentingCalls (MemoryManager.new 100)).get_memory_stats.2.2 =
      (runOps fragmentingCalls (MemoryManager.new 100)).get_memory_stats.1 :=
  ⟨by decide, (stats_conservation 100 (by decide) fragmentingCalls (by decide)).2⟩

/-- C9, evaluated where the code departs from it: on a fresh manager of total
8192 (a reachable state) `alloc(512)` returns 0 although it succeeded: the block
at address 0 is now occupied and the block list has changed. -/
theorem alloc_zero_on_success :
    Reachable 8192 (MemoryManager.new 8192) ∧
    (MemoryManager.new 8192).alloc 512
      = (0, ⟨[⟨512, false, 0⟩, ⟨7680, true, 512⟩], 8192⟩) ∧
    ((MemoryManager.new 8192).alloc 512).2.memory_blocks
      ≠ (MemoryManager.new 8192).memory_blocks :=
  ⟨⟨[], by simp, rfl⟩, by decide, by decide⟩

/-- C10, evaluated where the code departs from it: on a fresh scheduler over a
fresh manager of total 8192, `crear_proceso("calculadora", 512)` returns -1 and
queues nothing, yet the allocator's block list has changed: 512 bytes at
address 0 stay occupied. -/
theorem crear_proceso_failure_keeps_block :
    (ProcessScheduler.new (MemoryManager.new 8192)).crear_proceso "calculadora" 512
      = (-1, ⟨⟨[⟨512, false, 0⟩, ⟨7680, true, 512⟩], 8192⟩, [], [], 2, false⟩) ∧
    ((ProcessScheduler.new (MemoryManager.new 8192)).crear_proceso "calculadora"
        512).2.memory_manager.memory_blocks
      ≠ (ProcessScheduler.new (MemoryManager.new 8192)).memory_manager.memory_blocks :=
  ⟨by decide, by decide⟩

/-! ## Release after allocation -/

theorem free_of_wf {T : Nat} (m : MemoryManager) (pre : List Block) (R : Block)
    (post : List Block) (hwf : WF T m.memory_blocks)
    (hl : m.memory_blocks = pre ++ R :: post) (hR : R.is_free = false) :
    m.free R.start_addr = (true, ⟨releaseSpec pre R post, m.total_memory⟩) := by
  have htiles := hwf.tiles
  have hnoadj := hwf.noadj
  have hstrict : StrictAscending m.memory_blocks := (wf_tiling hwf).1
  rw [hl] at htiles hnoadj hstrict
  obtain ⟨_, _, hcross⟩ := List.pairwise_append.1 hstrict
  have hpre : ∀ x ∈ pre, ¬ Hit R.start_addr x := by
    intro x hx hhit
    have := hcross x hx R (List.mem_cons_self _ _)
    have := hhit.1
    omega
  have hscan := freeScan_append R.start_addr pre R post hpre ⟨rfl, hR⟩
  rw [← hl] at hscan
  rw [free_of_scan m R.start_addr _ hscan]
  have htiles1 : TilesFrom 0 T (pre ++ ⟨R.size, true, R.start_addr⟩ :: post) :=
    (tilesFrom_split (b := ⟨R.size, true, R.start_addr⟩)).2
      ((tilesFrom_split (b := R)).1 htiles)
  unfold merge_free_blocks
  rw [sortBlocks_of_tiles htiles1, mergeBlocks_release hwf.bound pre R post htiles hnoadj]

theorem releaseSpec_isolated (pre : List Block) (R : Block) (post : List Block)
    (h : ∀ p ∈ pre.getLast?, p.is_free = false) :
    releaseSpec pre R post = pre ++ (absorbNext R post).1 :: (absorbNext R post).2 := by
  unfold releaseSpec
  cases hlast : pre.getLast? with
  | none =>
    have : pre = [] := List.getLast?_eq_none_iff.1 hlast
    subst this
    rfl
  | some p =>
    have hp : p.is_free = false := h p (by rw [hlast]; rfl)
    simp [hp]

theorem absorbNext_occupied (R : Block) (post : List Block)
    (h : ∀ n ∈ post.head?, n.is_free = false) :
    absorbNext R post = (⟨R.size, true, R.start_addr⟩, post) := by
  cases post with
  | nil => rfl
  | cons n ps =>
    have hn : n.is_free = false := h n (by simp)
    simp [absorbNext, hn]

theorem noAdjFree_around {pre post : List Block} {b : Block}
    (h : NoAdjFree (pre ++ b :: post)) (hb : b.is_free = true) :
    (∀ p ∈ pre.getLast?, p.is_free = false) ∧ (∀ n ∈ post.head?, n.is_free = false) := by
  obtain ⟨h1, h2⟩ := List.chain'_split.1 h
  constructor
  · intro p hp
    have := (List.chain'_append.1 h1).2.2 p hp b (by simp)
    cases hpf : p.is_free with
    | false => rfl
    | true => exact absurd ⟨hpf, hb⟩ this
  · intro n hn
    cases post with
    | nil => simp at hn
    | cons c ps =>
      have hc : n = c := by simpa using hn.symm
      subst hc
      have := (List.chain'_cons.1 h2).1
      cases hnf : n.is_free with
      | false => rfl
      | true => exact absurd ⟨hb, hnf⟩ this

theorem alloc_then_free {T : Nat} (m : MemoryManager) (size : Nat)
    (hwf : WF T m.memory_blocks) (hsize : 0 < size)
    (hfit : ∃ b ∈ m.memory_blocks, Fits size b) :
    (m.alloc size).2.free (m.alloc size).1 = (true, m) := by
  cases hs : allocScan size m.memory_blocks with
  | none =>
    obtain ⟨b, hb, hbfit⟩ := hfit
    exact absurd hbfit ((allocScan_none size m.memory_blocks).1 hs b hb)
  | some r =>
    obtain ⟨a, l'⟩ := r
    have hwf' : WF T l' := wf_allocScan hwf hsize hs
    obtain ⟨pre, b, post, hl, _, hb, ha, hl'⟩ := allocScan_some size _ a l' hs
    have halloc : m.alloc size = (b.start_addr, ⟨l', m.total_memory⟩) := by
      unfold MemoryManager.alloc
      rw [hs, ha]
    have hnoadj := hwf.noadj
    rw [hl] at hnoadj
    obtain ⟨hprev, hnext⟩ := noAdjFree_around hnoadj hb.1
    rw [halloc]
    have hm : m = ⟨pre ++ b :: post, m.total_memory⟩ := by
      cases m
      simp only at hl
      subst hl
      rfl
    by_cases hexact : b.size = size
    · have hl2 : l' = pre ++ ⟨b.size, false, b.start_addr⟩ :: post := by
        rw [hl']; simp [splitBlock, hexact]
      have := free_of_wf (T := T) ⟨l', m.total_memory⟩ pre ⟨b.size, false, b.start_addr⟩ post
        hwf' hl2 rfl
      show MemoryManager.free ⟨l', m.total_memory⟩ b.start_addr = _
      rw [this, releaseSpec_isolated _ _ _ hprev, absorbNext_occupied _ _ hnext]
      show (true, (⟨pre ++ ⟨b.size, true, b.start_addr⟩ :: post, m.total_memory⟩ : MemoryManager))
        = (true, m)
      rw [block_eta_free hb.1, ← hm]
    · have hl2 : l' = pre ++ ⟨size, false, b.start_addr⟩ ::
          (⟨b.size - size, true, (b.start_addr + size) % SIZE_MOD⟩ :: post) := by
        rw [hl']; simp [splitBlock, hexact]
      have := free_of_wf (T := T) ⟨l', m.total_memory⟩ pre ⟨size, false, b.start_addr⟩ _
        hwf' hl2 rfl
      show MemoryManager.free ⟨l', m.total_memory⟩ b.start_addr = _
      rw [this, releaseSpec_isolated _ _ _ hprev]
      have hsz : size + (b.size - size) = b.size := by have := hb.2; omega
      show (true, (⟨pre ++ ⟨size + (b.size - size), true, b.start_addr⟩ :: post,
        m.total_memory⟩ : MemoryManager)) = (true, m)
      rw [hsz, block_eta_free hb.1, ← hm]

/-! # The scheduler -/

/-! ## What each step does to the ready queue -/

theorem crear_proceso_queue (s : ProcessScheduler) (name : String) (sz : Nat) :
    (s.crear_proceso name sz).2.ready_queue = s.ready_queue ∨
    (s.crear_proceso name sz).2.ready_queue = s.ready_queue ++
      [⟨s.next_pid, name, sz, (s.memory_manager.alloc sz).1, none⟩] := by
  unfold ProcessScheduler.crear_proceso
  dsimp only
  split
  · left; rfl
  · right; rfl

theorem crear_proceso_pushed (s : ProcessScheduler) (name : String) (sz : Nat) :
    (s.crear_proceso name sz).2.ready_queue = s.ready_queue ++
      (s.crear_proceso name sz).2.ready_queue.drop s.ready_queue.length := by
  rcases crear_proceso_queue s name sz with h | h
  · rw [h]; simp
  · rw [h]; simp

theorem start_scheduler_queue (s : ProcessScheduler) :
    s.start_scheduler.ready_queue = s.ready_queue := by
  unfold ProcessScheduler.start_scheduler
  split <;> rfl

theorem stop_scheduler_queue (s : ProcessScheduler) :
    s.stop_scheduler.1.ready_queue = s.ready_queue := by
  unfold ProcessScheduler.stop_scheduler
  split <;> rfl

theorem cleanup_queue (s s' : ProcessScheduler)
    (h : s.cleanup_finished_processes = some s') : s'.ready_queue = s.ready_queue := by
  unfold ProcessScheduler.cleanup_finished_processes at h
  split at h
  · simp only [Option.some.injEq] at h
    rw [← h]
  · exact absurd h (by simp)

theorem process_execution_queue (s : ProcessScheduler) (pid : Int) :
    (s.process_execution pid).1.ready_queue = s.ready_queue := by
  unfold ProcessScheduler.process_execution
  split
  · rfl
  · split
    · rfl
    · split <;> rfl

theorem terminate_process_queue (s : ProcessScheduler) (pid : Int) :
    (s.terminate_process pid).2.1.ready_queue = s.ready_queue := by
  unfold ProcessScheduler.terminate_process
  split <;> rfl

theorem dispatch_one_queue (s : ProcessScheduler) :
    s.ready_queue = s.dispatch_one.2 ++ s.dispatch_one.1.ready_queue := by
  unfold ProcessScheduler.dispatch_one
  split
  · split
    · rename_i h; simp [h]
    · rename_i p rest h
      simp [h, ProcessScheduler.execute_process]
  · simp

theorem step_sweep (y : Sys) :
    y.step .sweep = y ∨
    ∃ s, y.sched.cleanup_finished_processes = some s ∧
      y.step .sweep = ⟨s, y.admitted, y.dispatched, y.frees⟩ := by
  simp only [Sys.step]
  split
  · split
    · rename_i s hs
      exact Or.inr ⟨s, hs, rfl⟩
    · exact Or.inl rfl
  · exact Or.inl rfl

theorem step_history (y : Sys) (op : SchedOp)
    (h : y.admitted = y.dispatched ++ y.sched.ready_queue) :
    (y.step op).admitted = (y.step op).dispatched ++ (y.step op).sched.ready_queue := by
  cases op with
  | crear name sz =>
    show y.admitted ++ _ = y.dispatched ++ (y.sched.crear_proceso name sz).2.ready_queue
    rw [h, List.append_assoc, ← crear_proceso_pushed]
  | start =>
    show y.admitted = y.dispatched ++ y.sched.start_scheduler.ready_queue
    rw [start_scheduler_queue, h]
  | stop =>
    show y.admitted = y.dispatched ++ y.sched.stop_scheduler.1.ready_queue
    rw [stop_scheduler_queue, h]
  | sweep =>
    rcases step_sweep y with hs | ⟨s, hs, hy⟩
    · rw [hs]; exact h
    · rw [hy]
      show y.admitted = y.dispatched ++ s.ready_queue
      rw [cleanup_queue _ _ hs, h]
  | pop =>
    show y.admitted = (y.dispatched ++ y.sched.dispatch_one.2) ++ y.sched.dispatch_one.1.ready_queue
    rw [List.append_assoc, ← dispatch_one_queue, h]
  | finish pid =>
    show y.admitted = y.dispatched ++ (y.sched.process_execution pid).1.ready_queue
    rw [process_execution_queue, h]
  | terminate pid =>
    show y.admitted = y.dispatched ++ (y.sched.terminate_process pid).2.1.ready_queue
    rw [terminate_process_queue, h]

theorem run_history (ops : List SchedOp) (y : Sys)
    (h : y.admitted = y.dispatched ++ y.sched.ready_queue) :
    (Sys.run ops y).admitted = (Sys.run ops y).dispatched ++ (Sys.run ops y).sched.ready_queue := by
  induction ops generalizing y with
  | nil => exact h
  | cons op ops ih => exact ih (y.step op) (step_history y op h)

/-! ## Occupied blocks under `alloc` and `free` -/

theorem cleanup_keeps {s s' : ProcessScheduler}
    (hj : ∀ e ∈ s.running_processes, ∃ t, e.2.thread_ptr = some t ∧ t.joinable = true)
    (hc : s.cleanup_finished_processes = some s') : s' = s := by
  unfold ProcessScheduler.cleanup_finished_processes at hc
  split at hc
  · simp only [Option.some.injEq] at hc
    rw [← hc]
    have hfilter : s.running_processes.filter (fun e => cleanupEntry e == some true)
        = s.running_processes := by
      apply List.filter_eq_self.2
      intro e he
      obtain ⟨t, ht, htj⟩ := hj e he
      simp [cleanupEntry, ht, htj]
    rw [hfilter]
  · exact absurd hc (by simp)

theorem cleanup_succeeds {s : ProcessScheduler}
    (hj : ∀ e ∈ s.running_processes, ∃ t, e.2.thread_ptr = some t ∧ t.joinable = true) :
    s.cleanup_finished_processes = some s := by
  have hall : s.running_processes.all (fun e => (cleanupEntry e).isSome) = true := by
    apply List.all_eq_true.2
    intro e he
    obtain ⟨t, ht, htj⟩ := hj e he
    simp [cleanupEntry, ht, htj]
  cases hc : s.cleanup_finished_processes with
  | none =>
    unfold ProcessScheduler.cleanup_finished_processes at hc
    rw [if_pos hall] at hc
    exact absurd hc (by simp)
  | some s' => rw [cleanup_keeps hj hc]

theorem lookup_none (l : List (Int × Process)) (k : Int) (h : l.lookup k = none) :
    k ∉ l.map Prod.fst := by
  induction l with
  | nil => simp
  | cons e l ih =>
    obtain ⟨k0, p0⟩ := e
    by_cases hk : k = k0
    · subst hk
      simp [List.lookup_cons] at h
    · have hb : (k == k0) = false := by simpa using hk
      simp only [List.lookup_cons, hb] at h
      simp only [List.map_cons, List.mem_cons, not_or]
      exact ⟨hk, ih h⟩

theorem usedBytes_all_free (l : List Block) (h : ∀ b ∈ l, b.is_free = true) :
    usedBytes l = 0 := by
  induction l with
  | nil => rfl
  | cons b rest ih =>
    rw [usedBytes_cons, if_pos (h b (List.mem_cons_self _ _)),
      ih (fun x hx => h x (List.mem_cons_of_mem _ hx))]

theorem stats_of_wf {T : Nat} (m : MemoryManager) (hwf : WF T m.memory_blocks) :
    m.get_memory_stats.2.1 = usedBytes m.memory_blocks := by
  have hsum := tilesFrom_bytes hwf.tiles
  have hb := hwf.bound
  have hfold := stats_fold m.memory_blocks 0 0 (by omega)
  unfold MemoryManager.get_memory_stats
  simp only [hfold, Nat.zero_add]

/-! ## A stopped scheduler -/

/-- C11 (FIFO dispatch).  In every run of the scheduler from a fresh scheduler
over any allocator, the processes handed to `execute_process`, in the order of
the calls, are an initial segment of the processes pushed by `crear_proceso`, in
the order of the pushes; the remaining ones are exactly the ready queue, in
order. -/
theorem fifo_dispatch (mm : MemoryManager) (ops : List SchedOp) :
    (Sys.run ops (Sys.new mm)).dispatched <+: (Sys.run ops (Sys.new mm)).admitted ∧
    (Sys.run ops (Sys.new mm)).admitted =
      (Sys.run ops (Sys.new mm)).dispatched ++ (Sys.run ops (Sys.new mm)).sched.ready_queue := by
  have h := run_history ops (Sys.new mm) rfl
  exact ⟨⟨_, h.symm⟩, h⟩

/-- Witness of C11: over an allocator with address 0 taken, A, B and C are
admitted in this order and the three pops dispatch A, then B, then C. -/
theorem fifo_dispatch_witness :
    (Sys.run fifoRun (Sys.new zeroTaken)).admitted.map Process.name = ["A", "B", "C"] ∧
    (Sys.run fifoRun (Sys.new zeroTaken)).dispatched.map Process.name = ["A", "B", "C"] ∧
    (Sys.run fifoRun (Sys.new zeroTaken)).dispatched <+:
      (Sys.run fifoRun (Sys.new zeroTaken)).admitted :=
  ⟨by decide, by decide, (fifo_dispatch zeroTaken fifoRun).1⟩

/-- C12, evaluated where the code departs from it.  Process B (pid 2) is
dispatched with address 512 and its thread ends.  Whether `terminate_process(2)`
or `stop_scheduler` then removes it from the running table, `free(512)` has been
called twice for it; the cleanup sweep does not remove it.  When the address was
handed to a new process C in between, the second call releases the block of C,
which is still in the ready queue. -/
theorem free_called_twice :
    (Sys.run finishedRun (Sys.new (MemoryManager.new 8192))).dispatched.map Process.pid = [2] ∧
    freeCalls 2 512 (Sys.run finishedRun (Sys.new (MemoryManager.new 8192))).frees = 1 ∧
    (Sys.run (finishedRun ++ [.sweep]) (Sys.new (MemoryManager.new 8192))).sched
      = (Sys.run finishedRun (Sys.new (MemoryManager.new 8192))).sched ∧
    freeCalls 2 512
      (Sys.run (finishedRun ++ [.terminate 2]) (Sys.new (MemoryManager.new 8192))).frees = 2 ∧
    freeCalls 2 512
      (Sys.run (finishedRun ++ [.stop]) (Sys.new (MemoryManager.new 8192))).frees = 2 ∧
    (Sys.run (finishedRun ++ [.crear "C" 100, .terminate 2])
        (Sys.new (MemoryManager.new 8192))).sched.ready_queue
      = [⟨3, "C", 100, 512, none⟩] ∧
    (Sys.run (finishedRun ++ [.crear "C" 100, .terminate 2])
        (Sys.new (MemoryManager.new 8192))).sched.memory_manager.memory_blocks
      = [⟨512, false, 0⟩, ⟨7680, true, 512⟩] :=
  ⟨by decide, by decide, by decide, by decide, by decide, by decide, by decide⟩

/-- C15 (round trip).  In every state reached from a fresh `MemoryManager(T)` and
for every size > 0 that some free block can hold, `alloc(size)` followed by
`free` on the returned address returns true and restores the manager: the same
blocks in the same order with the same flags. -/
theorem alloc_free_round_trip (T : Nat) (hT : T < SIZE_MOD) (m : MemoryManager)
    (hreach : Reachable T m) (size : Nat) (hsize : 0 < size)
    (hfit : ∃ b ∈ m.memory_blocks, b.is_free = true ∧ size ≤ b.size) :
    (m.alloc size).2.free (m.alloc size).1 = (true, m) :=
  alloc_then_free m size (wf_reachable hT hreach) hsize hfit

/-- Witness of C15: in the reachable state `fragmented`, `alloc(5)` splits the
free block at address 40 and `free(40)` merges it back. -/
theorem alloc_free_round_trip_witness :
    fragmented.alloc 5 =
      (40, ⟨[⟨40, false, 0⟩, ⟨5, false, 40⟩, ⟨5, true, 45⟩, ⟨40, false, 50⟩,
        ⟨10, true, 90⟩], 100⟩) ∧
    (fragmented.alloc 5).2.free (fragmented.alloc 5).1 = (true, fragmented) :=
  ⟨by decide,
    alloc_free_round_trip 100 (by decide) fragmented
      ⟨fragmentingCalls, by decide, by decide⟩ 5 (by decide)
      ⟨⟨10, true, 40⟩, by decide, by decide⟩⟩
